import Mathlib

/-!
Verification of the git-timeline-analysis repository against its
natural-language specification.

The development shallowly embeds the analytics computations of the
repository: the classifier fallback contract, the chat answer fallback,
the developer scorecard metrics of
frontend/src/components/dashboard/DeveloperScorecard.tsx,
the activity heatmap of
frontend/src/components/dashboard/BusinessTimelineView.tsx,
and the daily timeline grouping of
frontend/src/components/dashboard/TimelineView.tsx.

Numeric values that JavaScript holds as numbers are embedded as
rationals, commit timestamps are embedded by the calendar unit the code
extracts from them (an absolute month index for the heatmap, an absolute
day index for the daily grouping), and the stable Array.prototype.sort
of the code is embedded as insertion sort, which realizes the same
stable-sort contract.
-/

/-! ### Classifier: business impact categories and keyword fallback -/

/-- The fixed business impact category set of the specification. -/
inductive BusinessImpact where
  | feature
  | bug_fix
  | performance
  | security
  | other
deriving DecidableEq, Repr

/-- The fixed category set as a list. -/
def impactCategories : List BusinessImpact :=
  [.feature, .bug_fix, .performance, .security, .other]

/-- Lowercased character code of an ASCII character. -/
def lowerCode (c : Char) : ℕ :=
  if 65 ≤ c.toNat ∧ c.toNat ≤ 90 then c.toNat + 32 else c.toNat

/-- Character codes of a search token. -/
def tokenCodes (s : String) : List ℕ :=
  s.toList.map Char.toNat

/-- Whether the needle codes occur at the head of the haystack codes. -/
def matchesAt : List ℕ → List ℕ → Bool
  | [], _ => true
  | _ :: _, [] => false
  | a :: as, b :: bs => a == b && matchesAt as bs

/-- Whether the needle codes occur contiguously anywhere in the haystack. -/
def hasToken : List ℕ → List ℕ → Bool
  | n, [] => n.isEmpty
  | n, b :: bs => matchesAt n (b :: bs) || hasToken n bs

/-- Case-insensitive token containment over the characters of a message. -/
def containsToken (message token : String) : Bool :=
  hasToken (tokenCodes token) (message.toList.map lowerCode)

/-- Modelled from the spec: the Classifier component lives in the backend,
which is absent from the source tree; only its callers are present.
The deterministic keyword fallback matches tokens of the lowercased
commit message against ordered rule tables: fix/bug/patch give bug_fix,
add/implement/introduce give feature, perf/optimi/speed give
performance, security/vuln give security, anything else gives other. -/
def fallbackClassify (message : String) : BusinessImpact :=
  let m := message
  if containsToken m "fix" || containsToken m "bug" || containsToken m "patch" then
    .bug_fix
  else if containsToken m "add" || containsToken m "implement" || containsToken m "introduce" then
    .feature
  else if containsToken m "perf" || containsToken m "optimi" || containsToken m "speed" then
    .performance
  else if containsToken m "security" || containsToken m "vuln" then
    .security
  else
    .other

/-- Modelled from the spec: per-commit classification prefers the
text-completion capability and falls back to the deterministic keyword
rules whenever that capability fails, times out, or returns empty
content (all represented by the capability returning none). -/
def classifyImpact (complete : String → Option BusinessImpact) (message : String) :
    BusinessImpact :=
  match complete message with
  | some impact => impact
  | none => fallbackClassify message

/-! ### Chat: answer assembly with context fallback -/

/-- Modelled from the spec: the prompt passed to the text-completion
capability grounds the question in the assembled context. -/
def mkPrompt (question context : String) : String :=
  question ++ "\n" ++ context

/-- Modelled from the spec: answerQuestion lives in the backend, which is
absent from the source tree; only the frontend caller in
ChatInterface.tsx is present. The assembled context is handed to the
text-completion capability; if the call fails (none) or returns empty
content, the assembled context itself is returned verbatim, so the
caller always receives a string and never a raw error. -/
def answerQuestion (complete : String → Option String) (context question : String) : String :=
  match complete (mkPrompt question context) with
  | some text => if text = "" then context else text
  | none => context

/-- C1: every commit processed receives a classification drawn from the
fixed category set, never null, for every behaviour of the completion
capability, including the entirely unavailable one; in particular the
fallback classifies the spec scenario message as bug_fix. -/
theorem classify_always_in_category_set :
    (∀ (complete : String → Option BusinessImpact) (message : String),
      classifyImpact complete message ∈ impactCategories) ∧
    classifyImpact (fun _ => none) "Fix null pointer exception in parser" =
      BusinessImpact.bug_fix := by
  constructor
  · intro complete message
    cases classifyImpact complete message <;> simp [impactCategories]
  · decide

/-- C2: whenever the completion call fails or returns empty content,
answerQuestion returns the assembled context text as the answer. -/
theorem answer_falls_back_to_context (complete : String → Option String)
    (context question : String)
    (h : complete (mkPrompt question context) = none ∨
      complete (mkPrompt question context) = some "") :
    answerQuestion complete context question = context := by
  rcases h with h | h <;> simp [answerQuestion, h]

/-- Witness for C2 at a concrete failing completion capability. -/
theorem answer_falls_back_to_context_witness :
    answerQuestion (fun _ => none) "assembled context blob" "what changed" =
      "assembled context blob" :=
  answer_falls_back_to_context (fun _ => none) "assembled context blob" "what changed"
    (Or.inl rfl)

/-! ### Developer scorecards (DeveloperScorecard.tsx)

The developer record mirrors the Developer interface of the component;
the number-typed fields that the backend serves are embedded as exact
values (commit and line counters as naturals, the backend-computed
contribution score as a rational). -/

/-- A developer as served to the DeveloperScorecard component. -/
structure Developer where
  name : String
  email : String
  expertise_areas : List String
  contribution_score : ℚ
  total_commits : ℕ
  lines_added : ℕ
  lines_removed : ℕ
deriving DecidableEq, Repr

/-- The cohort-wide commit total reduced over the developer list. -/
def cohortTotalCommits (devs : List Developer) : ℕ :=
  (devs.map (·.total_commits)).sum

/-- The cohort-wide changed-line total reduced over the developer list. -/
def cohortTotalLines (devs : List Developer) : ℕ :=
  (devs.map (fun d => d.lines_added + d.lines_removed)).sum

/-- Productivity score from the scorecards computation: the share of the
cohort commit total (guarded to at least one), scaled by 100 and by the
developer count, capped at 100. -/
def productivity_score (devs : List Developer) (d : Developer) : ℚ :=
  min 100 ((d.total_commits : ℚ) / ((max (cohortTotalCommits devs) 1 : ℕ) : ℚ) * 100 *
    (devs.length : ℚ))

/-- Impact score from the scorecards computation: the share of the cohort
changed-line total (guarded to at least one), scaled by 100 and by the
developer count, capped at 100. -/
def impact_score (devs : List Developer) (d : Developer) : ℚ :=
  min 100 (((d.lines_added + d.lines_removed : ℕ) : ℚ) /
    ((max (cohortTotalLines devs) 1 : ℕ) : ℚ) * 100 * (devs.length : ℚ))

/-- Consistency score from the scorecards computation: commit count over
the fixed 30-day activity window, scaled by 100 and capped, and zero for
a developer without commits. -/
def consistency_score (d : Developer) : ℚ :=
  if 0 < d.total_commits then min 100 ((d.total_commits : ℚ) / 30 * 100) else 0

/-- Collaboration score from the scorecards computation: 25 points per
expertise area, capped at 100. -/
def collaboration_score (d : Developer) : ℚ :=
  min 100 ((d.expertise_areas.length : ℚ) * 25)

/-- A computed scorecard entry of the component. -/
structure Scorecard extends Developer where
  rank : ℕ
  productivity_score : ℚ
  impact_score : ℚ
  consistency_score : ℚ
  collaboration_score : ℚ
  overall_grade : String
deriving DecidableEq, Repr

/-- One scorecard as built inside the map of the scorecards memo: the
four component scores, then the overall grade from the average of the
four through the fixed threshold chain, with the pre-sort rank being the
1-based position in the input list. -/
def mkScorecard (devs : List Developer) (index : ℕ) (d : Developer) : Scorecard :=
  let p := productivity_score devs d
  let i := impact_score devs d
  let c := consistency_score d
  let col := collaboration_score d
  let average := (p + i + c + col) / 4
  { toDeveloper := d
    rank := index + 1
    productivity_score := p
    impact_score := i
    consistency_score := c
    collaboration_score := col
    overall_grade :=
      if 90 ≤ average then "A+"
      else if 80 ≤ average then "A"
      else if 70 ≤ average then "B+"
      else if 60 ≤ average then "B"
      else if 50 ≤ average then "C+"
      else if 40 ≤ average then "C"
      else "D" }

/-- The fixed grade thresholds as the specification words them. -/
def gradeThresholds (average : ℚ) : String :=
  if 90 ≤ average then "A+"
  else if 80 ≤ average then "A"
  else if 70 ≤ average then "B+"
  else if 60 ≤ average then "B"
  else if 50 ≤ average then "C+"
  else if 40 ≤ average then "C"
  else "D"

/-- C3: for a developer of the cohort the four component scores agree
with the spec formulas, each is capped at 100, and in a 10-developer
cohort a developer authoring 90 percent of the commits and 90 percent of
the changed lines scores exactly 100 on productivity and impact. -/
theorem component_scores_match_spec (devs : List Developer) (d : Developer) (hd : d ∈ devs) :
    productivity_score devs d =
      min 100 ((d.total_commits : ℚ) / (cohortTotalCommits devs : ℚ) * 100 * (devs.length : ℚ)) ∧
    impact_score devs d =
      min 100 (((d.lines_added + d.lines_removed : ℕ) : ℚ) / (cohortTotalLines devs : ℚ) * 100 *
        (devs.length : ℚ)) ∧
    consistency_score d =
      (if 0 < d.total_commits then min 100 ((d.total_commits : ℚ) / 30 * 100) else 0) ∧
    collaboration_score d = min 100 (25 * (d.expertise_areas.length : ℚ)) ∧
    productivity_score devs d ≤ 100 ∧
    impact_score devs d ≤ 100 ∧
    consistency_score d ≤ 100 ∧
    collaboration_score d ≤ 100 ∧
    (devs.length = 10 → 10 * d.total_commits = 9 * cohortTotalCommits devs →
      0 < cohortTotalCommits devs → productivity_score devs d = 100) ∧
    (devs.length = 10 → 10 * (d.lines_added + d.lines_removed) = 9 * cohortTotalLines devs →
      0 < cohortTotalLines devs → impact_score devs d = 100) := by
  have hc_le : d.total_commits ≤ cohortTotalCommits devs :=
    List.single_le_sum (fun x _ => Nat.zero_le x) _ (List.mem_map_of_mem _ hd)
  have hl_le : d.lines_added + d.lines_removed ≤ cohortTotalLines devs :=
    List.single_le_sum (fun x _ => Nat.zero_le x) _
      (List.mem_map_of_mem (fun d => d.lines_added + d.lines_removed) hd)
  refine ⟨?_, ?_, rfl, ?_, min_le_left _ _, min_le_left _ _, ?_, min_le_left _ _, ?_, ?_⟩
  · by_cases hT : cohortTotalCommits devs = 0
    · have hc0 : d.total_commits = 0 := Nat.le_zero.mp (hT ▸ hc_le)
      simp [productivity_score, hT, hc0]
    · rw [productivity_score, max_eq_left (Nat.one_le_iff_ne_zero.mpr hT)]
  · by_cases hL : cohortTotalLines devs = 0
    · have hl0 : d.lines_added + d.lines_removed = 0 := Nat.le_zero.mp (hL ▸ hl_le)
      simp [impact_score, hL, hl0]
    · rw [impact_score, max_eq_left (Nat.one_le_iff_ne_zero.mpr hL)]
  · rw [collaboration_score, mul_comm]
  · rw [consistency_score]
    split
    · exact min_le_left _ _
    · norm_num
  · intro h10 h9 hpos
    have hTQ : (cohortTotalCommits devs : ℚ) ≠ 0 := (Nat.cast_pos.mpr hpos).ne'
    have key : (d.total_commits : ℚ) / (cohortTotalCommits devs : ℚ) * 100 *
        (devs.length : ℚ) = 900 := by
      have h9Q : (10 : ℚ) * (d.total_commits : ℚ) = 9 * (cohortTotalCommits devs : ℚ) := by
        exact_mod_cast h9
      rw [h10]
      push_cast
      field_simp
      linarith
    rw [productivity_score, max_eq_left hpos, key]
    norm_num
  · intro h10 h9 hpos
    have hLQ : (cohortTotalLines devs : ℚ) ≠ 0 := (Nat.cast_pos.mpr hpos).ne'
    have key : ((d.lines_added + d.lines_removed : ℕ) : ℚ) / (cohortTotalLines devs : ℚ) * 100 *
        (devs.length : ℚ) = 900 := by
      have h9Q : (10 : ℚ) * ((d.lines_added + d.lines_removed : ℕ) : ℚ) =
          9 * (cohortTotalLines devs : ℚ) := by exact_mod_cast h9
      rw [h10]
      push_cast
      push_cast at h9Q
      field_simp
      linarith
    rw [impact_score, max_eq_left hpos, key]
    norm_num

/-- The scenario cohort for the witness: ten developers, the first
authoring 9 of 10 commits and 900 of 1000 changed lines. -/
def scenarioCohort : List Developer :=
  ⟨"lead", "lead@example.com", ["Frontend", "DevOps"], 95, 9, 450, 450⟩ ::
    ⟨"dev1", "dev1@example.com", [], 10, 1, 100, 0⟩ ::
      (List.replicate 8 ⟨"idle", "idle@example.com", [], 0, 0, 0, 0⟩)

/-- Witness for C3: in the concrete ten-developer scenario cohort the
lead developer scores exactly 100 on productivity and impact. -/
theorem component_scores_match_spec_witness :
    productivity_score scenarioCohort
        ⟨"lead", "lead@example.com", ["Frontend", "DevOps"], 95, 9, 450, 450⟩ = 100 ∧
    impact_score scenarioCohort
        ⟨"lead", "lead@example.com", ["Frontend", "DevOps"], 95, 9, 450, 450⟩ = 100 := by
  have h := component_scores_match_spec scenarioCohort
    ⟨"lead", "lead@example.com", ["Frontend", "DevOps"], 95, 9, 450, 450⟩
    (by simp [scenarioCohort])
  exact ⟨h.2.2.2.2.2.2.2.2.1 (by simp [scenarioCohort]) (by simp [scenarioCohort, cohortTotalCommits])
      (by simp [scenarioCohort, cohortTotalCommits]),
    h.2.2.2.2.2.2.2.2.2 (by simp [scenarioCohort]) (by simp [scenarioCohort, cohortTotalLines])
      (by simp [scenarioCohort, cohortTotalLines])⟩

/-- C4: the overall letter grade of every computed scorecard equals the
arithmetic mean of its four component scores mapped through the fixed
thresholds. -/
theorem overall_grade_matches_thresholds (devs : List Developer) (index : ℕ) (d : Developer) :
    (mkScorecard devs index d).overall_grade =
      gradeThresholds (((mkScorecard devs index d).productivity_score +
        (mkScorecard devs index d).impact_score +
        (mkScorecard devs index d).consistency_score +
        (mkScorecard devs index d).collaboration_score) / 4) := rfl

/-! ### Scorecard ranking (sort block of the scorecards memo) -/

/-- The selectable sort fields of the component. -/
inductive ScoreSortField where
  | contribution_score
  | total_commits
  | productivity
  | impact
deriving DecidableEq, Repr

/-- The numeric key the sort comparator reads for each sort field. -/
def sortKey : ScoreSortField → Scorecard → ℚ
  | .contribution_score, s => s.contribution_score
  | .total_commits, s => (s.total_commits : ℚ)
  | .productivity, s => s.productivity_score
  | .impact, s => s.impact_score

/-- The descending order realized by the comparator of the sort call. -/
def scoreDescending (field : ScoreSortField) (a b : Scorecard) : Prop :=
  sortKey field b ≤ sortKey field a

instance (field : ScoreSortField) : DecidableRel (scoreDescending field) :=
  fun a b => inferInstanceAs (Decidable (sortKey field b ≤ sortKey field a))

/-- The scorecard list before sorting, with the pre-sort rank of each
entry being its 1-based position in the developer list, as assigned by
the first map of the memo. -/
def buildScorecards (devs : List Developer) : ℕ → List Developer → List Scorecard
  | _, [] => []
  | n, d :: rest => mkScorecard devs n d :: buildScorecards devs (n + 1) rest

/-- All scorecards of the cohort in input order. -/
def baseScorecards (devs : List Developer) : List Scorecard :=
  buildScorecards devs 0 devs

/-- The stable descending sort of the scorecards, embedding the stable
Array.prototype.sort of the component. -/
def sortedScorecards (field : ScoreSortField) (devs : List Developer) : List Scorecard :=
  List.insertionSort (scoreDescending field) (baseScorecards devs)

/-- The final rank overwrite of the second map of the memo: each entry
gets rank equal to its 1-based position in the sorted list. -/
def reRank : ℕ → List Scorecard → List Scorecard
  | _, [] => []
  | n, s :: rest => { s with rank := n + 1 } :: reRank (n + 1) rest

/-- The ranked scorecards returned by the memo. -/
def rankedScorecards (field : ScoreSortField) (devs : List Developer) : List Scorecard :=
  reRank 0 (sortedScorecards field devs)

/-- Forget the rank field so lists can be compared up to ranking. -/
def scrubRank (s : Scorecard) : Scorecard :=
  { s with rank := 0 }

theorem buildScorecards_length (devs : List Developer) :
    ∀ (n : ℕ) (l : List Developer), (buildScorecards devs n l).length = l.length := by
  intro n l
  induction l generalizing n with
  | nil => rfl
  | cons d rest ih => simp [buildScorecards, ih]

theorem mem_buildScorecards_rank (devs : List Developer) :
    ∀ (n : ℕ) (l : List Developer) (s : Scorecard),
      s ∈ buildScorecards devs n l → n + 1 ≤ s.rank := by
  intro n l
  induction l generalizing n with
  | nil => intro s hs; simp [buildScorecards] at hs
  | cons d rest ih =>
    intro s hs
    rw [buildScorecards] at hs
    rcases List.mem_cons.mp hs with rfl | hs
    · exact le_of_eq rfl
    · have := ih (n + 1) s hs
      omega

theorem buildScorecards_pairwise_rank (devs : List Developer) :
    ∀ (n : ℕ) (l : List Developer),
      (buildScorecards devs n l).Pairwise (fun a b => a.rank < b.rank) := by
  intro n l
  induction l generalizing n with
  | nil => exact List.Pairwise.nil
  | cons d rest ih =>
    rw [buildScorecards]
    refine List.pairwise_cons.mpr ⟨?_, ih (n + 1)⟩
    intro s hs
    have := mem_buildScorecards_rank devs (n + 1) rest s hs
    have hr : (mkScorecard devs n d).rank = n + 1 := rfl
    omega

theorem pairwise_orderedInsert {α : Type*} (r : α → α → Prop) [DecidableRel r]
    (P : α → α → Prop) (x : α) :
    ∀ l : List α, l.Pairwise P → (∀ y ∈ l, P x y) → (∀ y ∈ l, ¬r x y → P y x) →
      (List.orderedInsert r x l).Pairwise P := by
  intro l
  induction l with
  | nil =>
    intro _ _ _
    simp
  | cons b t ih =>
    intro hp hx hr
    rw [List.orderedInsert]
    by_cases hrb : r x b
    · rw [if_pos hrb]
      exact List.pairwise_cons.mpr ⟨hx, hp⟩
    · rw [if_neg hrb]
      refine List.pairwise_cons.mpr ⟨?_, ?_⟩
      · intro y hy
        rcases (List.mem_orderedInsert r).mp hy with rfl | hyt
        · exact hr b (List.mem_cons_self b t) hrb
        · exact (List.pairwise_cons.mp hp).1 y hyt
      · exact ih (List.pairwise_cons.mp hp).2
          (fun y hy => hx y (List.mem_cons_of_mem b hy))
          (fun y hy hrxy => hr y (List.mem_cons_of_mem b hy) hrxy)

theorem pairwise_insertionSort_of_pairwise {α : Type*} (r : α → α → Prop) [DecidableRel r]
    (Q P : α → α → Prop) (hQP : ∀ a b, Q a b → P a b)
    (hQPs : ∀ a b, Q a b → ¬r a b → P b a) :
    ∀ l : List α, l.Pairwise Q → (List.insertionSort r l).Pairwise P := by
  intro l
  induction l with
  | nil =>
    intro _
    simp
  | cons a t ih =>
    intro h
    rw [List.insertionSort]
    refine pairwise_orderedInsert r P a _ (ih (List.pairwise_cons.mp h).2) ?_ ?_
    · intro y hy
      exact hQP a y ((List.pairwise_cons.mp h).1 y
        ((List.perm_insertionSort r t).mem_iff.mp hy))
    · intro y hy hr
      exact hQPs a y ((List.pairwise_cons.mp h).1 y
        ((List.perm_insertionSort r t).mem_iff.mp hy)) hr

theorem reRank_map_scrubRank :
    ∀ (n : ℕ) (l : List Scorecard), (reRank n l).map scrubRank = l.map scrubRank := by
  intro n l
  induction l generalizing n with
  | nil => rfl
  | cons s rest ih => simp [reRank, scrubRank, ih]

theorem reRank_length : ∀ (n : ℕ) (l : List Scorecard), (reRank n l).length = l.length := by
  intro n l
  induction l generalizing n with
  | nil => rfl
  | cons s rest ih => simp [reRank, ih]

theorem reRank_get :
    ∀ (l : List Scorecard) (n i : ℕ) (h : i < (reRank n l).length),
      ((reRank n l).get ⟨i, h⟩).rank = n + i + 1 := by
  intro l
  induction l with
  | nil =>
    intro n i h
    simp [reRank] at h
  | cons s rest ih =>
    intro n i h
    cases i with
    | zero => rfl
    | succ j =>
      have hj : j < (reRank (n + 1) rest).length := by
        have := h
        simp only [reRank, List.length_cons] at this
        omega
      have ih2 := ih (n + 1) j hj
      have hstep : ((reRank n (s :: rest)).get ⟨j + 1, h⟩) =
          ((reRank (n + 1) rest).get ⟨j, hj⟩) := rfl
      rw [hstep, ih2]
      omega

theorem rankedScorecards_length (field : ScoreSortField) (devs : List Developer) :
    (rankedScorecards field devs).length = devs.length := by
  rw [rankedScorecards, reRank_length, sortedScorecards, List.length_insertionSort,
    baseScorecards, buildScorecards_length]

/-- C5: for every cohort and selectable sort field, the sorted scorecard
list is a permutation of the built scorecards, it is descending in the
selected key, ties keep the original insertion order carried by the
pre-sort ranks, the final output only rewrites ranks, and every final
rank is the 1-based position in the sorted output. -/
theorem ranking_matches_spec (field : ScoreSortField) (devs : List Developer) :
    (sortedScorecards field devs).Perm (baseScorecards devs) ∧
    (sortedScorecards field devs).Sorted (scoreDescending field) ∧
    (sortedScorecards field devs).Pairwise
      (fun a b => sortKey field a = sortKey field b → a.rank < b.rank) ∧
    (rankedScorecards field devs).map scrubRank =
      (sortedScorecards field devs).map scrubRank ∧
    ∀ (i : ℕ) (h : i < (rankedScorecards field devs).length),
      ((rankedScorecards field devs).get ⟨i, h⟩).rank = i + 1 := by
  refine ⟨List.perm_insertionSort _ _, ?_, ?_, reRank_map_scrubRank 0 _, ?_⟩
  · haveI : IsTotal Scorecard (scoreDescending field) :=
      ⟨fun a b => le_total (sortKey field b) (sortKey field a)⟩
    haveI : IsTrans Scorecard (scoreDescending field) :=
      ⟨fun _ _ _ hab hbc => le_trans hbc hab⟩
    exact List.sorted_insertionSort _ _
  · exact pairwise_insertionSort_of_pairwise (scoreDescending field)
      (fun a b => a.rank < b.rank)
      (fun a b => sortKey field a = sortKey field b → a.rank < b.rank)
      (fun _ _ hq _ => hq)
      (fun _ _ _ hr heq => absurd (le_of_eq heq) hr)
      (baseScorecards devs) (buildScorecards_pairwise_rank devs 0 devs)
  · intro i h
    have := reRank_get (sortedScorecards field devs) 0 i h
    simpa using this

/-- A concrete two-developer cohort for the ranking witness. -/
def rankingWitnessCohort : List Developer :=
  [⟨"alice", "alice@example.com", ["Frontend"], 5, 3, 10, 2⟩,
    ⟨"bob", "bob@example.com", [], 7, 1, 4, 0⟩]

theorem rankingWitnessCohort_pos :
    0 < (rankedScorecards ScoreSortField.total_commits rankingWitnessCohort).length := by
  rw [rankedScorecards_length]
  decide

/-- Witness for C5: the first entry of the concrete ranked output has
rank 1. -/
theorem ranking_matches_spec_witness :
    ((rankedScorecards ScoreSortField.total_commits rankingWitnessCohort).get
      ⟨0, rankingWitnessCohort_pos⟩).rank = 0 + 1 :=
  (ranking_matches_spec ScoreSortField.total_commits rankingWitnessCohort).2.2.2.2 0
    rankingWitnessCohort_pos

/-! ### Activity heatmap (BusinessTimelineView.tsx, heatmapData memo)

Commit timestamps enter the heatmap only through the calendar month key
the code extracts from them, so a commit is embedded by the absolute
index of its calendar month (year times twelve plus month index). The
wall clock that the code reads with new Date() is the explicit pair of
parameters nowM and nowD, the absolute index of the current month and
the current day of month; the setMonth calls of the code keep the day
of month and normalize an oversized day into the following month, which
the embedding reproduces with jsSetMonth over the Gregorian month
lengths. -/

/-- A commit as consumed by the heatmap memo. -/
structure HeatCommit where
  sha : String
  month : ℤ
deriving DecidableEq, Repr

/-- Number of commits whose timestamp falls in calendar month m, the
per-month tally of the monthlyCommits map. -/
def monthCount (commits : List HeatCommit) (m : ℤ) : ℕ :=
  commits.countP (fun c => decide (c.month = m))

/-- The distinct months present among the commits, the key set of the
monthlyCommits map. -/
def commitMonths (commits : List HeatCommit) : List ℤ :=
  (commits.map (·.month)).dedup

/-- The normalizing maximum of the heatmap: the largest per-month tally
over the months present, floored at one. -/
def maxMonthly (commits : List HeatCommit) : ℕ :=
  max (((commitMonths commits).map (monthCount commits)).foldr max 0) 1

/-- JavaScript Math.round on a nonnegative rational: floor of the value
plus one half. -/
def jsRound (q : ℚ) : ℤ :=
  ⌊q + 1 / 2⌋

/-- One cell of the heatmap array. -/
structure HeatCell where
  month : ℤ
  commitCount : ℕ
  intensity : ℤ
deriving DecidableEq, Repr

/-- The zero-based month of an absolute month index. -/
def monthOfYear (m : ℤ) : ℕ :=
  (m.emod 12).toNat

/-- The calendar year of an absolute month index. -/
def yearOf (m : ℤ) : ℤ :=
  m.ediv 12

/-- Gregorian leap year rule, as JavaScript Date applies it. -/
def isLeap (y : ℤ) : Bool :=
  (y % 4 == 0 && y % 100 != 0) || y % 400 == 0

/-- Number of days of the month with the given absolute index. -/
def daysInMonth (m : ℤ) : ℕ :=
  if monthOfYear m = 1 then (if isLeap (yearOf m) then 29 else 28)
  else if monthOfYear m = 3 ∨ monthOfYear m = 5 ∨ monthOfYear m = 8 ∨ monthOfYear m = 10 then 30
  else 31

/-- JavaScript setMonth on a date carrying the given day of month: the
target month is set and an oversized day of month rolls into the
following month. For the days of month that occur here (at most 31) the
overflow never exceeds one month, since every month has at least 28
days. -/
def jsSetMonth (day : ℕ) (m : ℤ) : ℤ × ℕ :=
  if day ≤ daysInMonth m then (m, day) else (m + 1, day - daysInMonth m)

/-- The twelve month keys the heatmap loop generates: startDate is the
wall-clock date moved eleven months back with setMonth (keeping the
wall-clock day of month, normalizing overflow), and the i-th key is a
copy of startDate with its month set to the startDate month plus i,
again normalized. -/
def jsWindowMonths (nowM : ℤ) (nowD : ℕ) : List ℤ :=
  (List.range 12).map (fun i : ℕ =>
    (jsSetMonth (jsSetMonth nowD (nowM - 11)).2
      ((jsSetMonth nowD (nowM - 11)).1 + (i : ℤ))).1)

/-- The heatmap array of the memo: one cell per generated month key,
tallying commits of that month and a rounded relative intensity. -/
def heatmapData (nowM : ℤ) (nowD : ℕ) (commits : List HeatCommit) : List HeatCell :=
  (jsWindowMonths nowM nowD).map (fun m =>
    { month := m
      commitCount := monthCount commits m
      intensity := jsRound ((monthCount commits m : ℚ) / (maxMonthly commits : ℚ) * 4) })

theorem le_daysInMonth (m : ℤ) : 28 ≤ daysInMonth m := by
  rw [daysInMonth]
  split_ifs <;> norm_num

theorem jsSetMonth_of_le {day : ℕ} (hday : day ≤ 28) (m : ℤ) :
    jsSetMonth day m = (m, day) := by
  rw [jsSetMonth, if_pos (hday.trans (le_daysInMonth m))]

theorem jsWindowMonths_of_le (nowM : ℤ) {nowD : ℕ} (hday : nowD ≤ 28) :
    jsWindowMonths nowM nowD = (List.range 12).map (fun i : ℕ => nowM - 11 + (i : ℤ)) := by
  simp only [jsWindowMonths, jsSetMonth_of_le hday]

theorem trailingMonths_nodup (now : ℤ) :
    ((List.range 12).map (fun i : ℕ => now - 11 + (i : ℤ))).Nodup := by
  have hinj : Function.Injective (fun i : ℕ => now - 11 + (i : ℤ)) := by
    intro i j hij
    have h2 : now - 11 + (i : ℤ) = now - 11 + (j : ℤ) := hij
    omega
  exact List.Nodup.map hinj (List.nodup_range 12)

/-- Counterexample to C6 as stated: with the wall clock at absolute
month 100 on day 1 and a single commit in month 50, the window does not
contain the month of the latest commit at all, because the code anchors
the window at new Date(), the wall clock, not at the data. -/
theorem heatmap_window_ignores_latest_commit :
    (50 : ℤ) ∉ (heatmapData 100 1 [{ sha := "a", month := 50 }]).map (·.month) := by
  decide

/-- C6 (amended): the heatmap window is anchored at the wall clock, not
at the latest commit; on a wall-clock day of month of at most 28, where
setMonth never overflows, it covers exactly the twelve calendar months
ending at the wall-clock current month, every one of those months
appears, and a window month without commits reports a zero count. -/
theorem heatmap_window_wall_clock (nowM : ℤ) (nowD : ℕ) (commits : List HeatCommit)
    (hday : nowD ≤ 28) :
    (heatmapData nowM nowD commits).map (·.month) =
      (List.range 12).map (fun i : ℕ => nowM - 11 + (i : ℤ)) ∧
    (heatmapData nowM nowD commits).length = 12 ∧
    ∀ cell ∈ heatmapData nowM nowD commits,
      (∀ c ∈ commits, c.month ≠ cell.month) → cell.commitCount = 0 := by
  refine ⟨?_, ?_, ?_⟩
  · simp [heatmapData, jsWindowMonths_of_le nowM hday, List.map_map, Function.comp]
  · simp only [heatmapData, List.length_map, jsWindowMonths_of_le nowM hday,
      List.length_range]
  · intro cell hcell hnone
    rcases List.mem_map.mp hcell with ⟨m, _, rfl⟩
    show monthCount commits m = 0
    rw [monthCount, List.countP_eq_zero]
    intro c hc
    simpa using hnone c hc

theorem heatmapWitnessPos : 0 < (heatmapData 0 1 []).length := by
  simp only [heatmapData, jsWindowMonths, List.length_map, List.length_range]
  decide

/-- Witness for C6 at the empty commit list on a day-1 wall clock: the
first window cell reports a zero count. -/
theorem heatmap_window_wall_clock_witness :
    ((heatmapData 0 1 []).get ⟨0, heatmapWitnessPos⟩).commitCount = 0 :=
  (heatmap_window_wall_clock 0 1 [] (by decide)).2.2 _ (List.get_mem _ 0 heatmapWitnessPos)
    (fun c hc => absurd hc (List.not_mem_nil c))

theorem countP_month_mem_cons (commits : List HeatCommit) (m : ℤ) (ms : List ℤ)
    (hm : m ∉ ms) :
    commits.countP (fun c => decide (c.month ∈ m :: ms)) =
      commits.countP (fun c => decide (c.month = m)) +
        commits.countP (fun c => decide (c.month ∈ ms)) := by
  induction commits with
  | nil => rfl
  | cons c cs ih =>
    simp only [List.countP_cons, ih]
    by_cases h1 : c.month = m
    · simp [h1, hm]
      omega
    · by_cases h2 : c.month ∈ ms
      · simp [List.mem_cons, h1, h2]
        omega
      · simp [List.mem_cons, h1, h2]

theorem sum_monthCounts (commits : List HeatCommit) :
    ∀ ms : List ℤ, ms.Nodup →
      (ms.map (monthCount commits)).sum =
        commits.countP (fun c => decide (c.month ∈ ms)) := by
  intro ms
  induction ms with
  | nil => intro _; simp
  | cons m rest ih =>
    intro hnd
    have hm : m ∉ rest := (List.nodup_cons.mp hnd).1
    rw [List.map_cons, List.sum_cons, ih (List.nodup_cons.mp hnd).2,
      countP_month_mem_cons commits m rest hm, monthCount]

/-- Counterexample to C7 as stated: at wall clock July 31 2025 (absolute
month 24306, day 31) the setMonth overflow duplicates the October 2024
bucket while skipping September 2024, so a single commit in October
2024 (absolute month 24297) is tallied twice: the bucket sum is 2 while
exactly one commit falls in the window. -/
theorem heatmap_counts_double_count :
    ((heatmapData 24306 31 [{ sha := "a", month := 24297 }]).map (·.commitCount)).sum = 2 ∧
    (([{ sha := "a", month := 24297 }] : List HeatCommit).filter
      (fun c => decide (c.month ∈ jsWindowMonths 24306 31))).length = 1 := by
  decide

/-- C7 (amended): on a wall-clock day of month of at most 28, where the
twelve generated month keys are pairwise distinct, the sum of the
per-month counts over the twelve buckets equals the number of commits
whose timestamp falls inside the window. -/
theorem heatmap_counts_sum_matches_window (nowM : ℤ) (nowD : ℕ) (commits : List HeatCommit)
    (hday : nowD ≤ 28) :
    ((heatmapData nowM nowD commits).map (·.commitCount)).sum =
      (commits.filter (fun c => decide (c.month ∈ jsWindowMonths nowM nowD))).length := by
  have hmap : (heatmapData nowM nowD commits).map (·.commitCount) =
      (jsWindowMonths nowM nowD).map (monthCount commits) := by
    simp [heatmapData, List.map_map, Function.comp]
  rw [hmap, jsWindowMonths_of_le nowM hday,
    sum_monthCounts commits _ (trailingMonths_nodup nowM), List.countP_eq_length_filter]

/-- Witness for C7 on a day-1 wall clock at absolute month 100 with one
commit inside the window. -/
theorem heatmap_counts_sum_matches_window_witness :
    ((heatmapData 100 1 [{ sha := "a", month := 95 }]).map (·.commitCount)).sum =
      (([{ sha := "a", month := 95 }] : List HeatCommit).filter
        (fun c => decide (c.month ∈ jsWindowMonths 100 1))).length :=
  heatmap_counts_sum_matches_window 100 1 [{ sha := "a", month := 95 }] (by decide)

theorem le_foldr_max : ∀ {l : List ℕ} {a : ℕ}, a ∈ l → a ≤ l.foldr max 0 := by
  intro l
  induction l with
  | nil => intro a ha; cases ha
  | cons b t ih =>
    intro a ha
    rcases List.mem_cons.mp ha with rfl | ha
    · exact le_max_left _ _
    · exact (ih ha).trans (le_max_right _ _)

theorem monthCount_le_maxMonthly (commits : List HeatCommit) (m : ℤ) :
    monthCount commits m ≤ maxMonthly commits := by
  by_cases h : monthCount commits m = 0
  · rw [h]
    exact Nat.zero_le _
  · have hpos : 0 < monthCount commits m := Nat.pos_of_ne_zero h
    rw [monthCount] at hpos
    rcases List.countP_pos_iff.mp hpos with ⟨c, hc, hp⟩
    have hmonth : c.month = m := by simpa using hp
    have hmem : m ∈ commits.map (·.month) := List.mem_map.mpr ⟨c, hc, hmonth⟩
    have hded : m ∈ commitMonths commits := by
      rw [commitMonths]
      exact List.mem_dedup.mpr hmem
    have hin : monthCount commits m ∈ (commitMonths commits).map (monthCount commits) :=
      List.mem_map_of_mem _ hded
    exact (le_foldr_max hin).trans (le_max_left _ _)

/-- C10: the heatmap intensity computation is total and safe on every
commit list: the normalizing maximum is at least one, a zero-count month
has intensity zero, and every intensity lies between 0 and 4. -/
theorem heatmap_intensity_safe (nowM : ℤ) (nowD : ℕ) (commits : List HeatCommit) :
    1 ≤ maxMonthly commits ∧
    ∀ cell ∈ heatmapData nowM nowD commits,
      (cell.commitCount = 0 → cell.intensity = 0) ∧
      0 ≤ cell.intensity ∧ cell.intensity ≤ 4 := by
  refine ⟨le_max_right _ _, ?_⟩
  intro cell hcell
  rcases List.mem_map.mp hcell with ⟨m, _, rfl⟩
  have hM1 : (1 : ℚ) ≤ (maxMonthly commits : ℚ) := by
    exact_mod_cast le_max_right _ 1
  have hMpos : (0 : ℚ) < (maxMonthly commits : ℚ) := lt_of_lt_of_le one_pos hM1
  refine ⟨?_, ?_, ?_⟩
  · intro h0
    have hc0 : monthCount commits m = 0 := h0
    show jsRound ((monthCount commits m : ℚ) / (maxMonthly commits : ℚ) * 4) = 0
    rw [hc0, jsRound]
    have hval : ((0 : ℕ) : ℚ) / (maxMonthly commits : ℚ) * 4 + 1 / 2 = 1 / 2 := by
      simp
    rw [hval]
    have hlow : (0 : ℤ) ≤ ⌊(1 : ℚ) / 2⌋ := Int.le_floor.mpr (by norm_num)
    have hhigh : ⌊(1 : ℚ) / 2⌋ < 1 := Int.floor_lt.mpr (by norm_num)
    omega
  · show (0 : ℤ) ≤ jsRound ((monthCount commits m : ℚ) / (maxMonthly commits : ℚ) * 4)
    rw [jsRound]
    refine Int.le_floor.mpr ?_
    have hq : (0 : ℚ) ≤ (monthCount commits m : ℚ) / (maxMonthly commits : ℚ) * 4 := by
      positivity
    push_cast
    linarith
  · show jsRound ((monthCount commits m : ℚ) / (maxMonthly commits : ℚ) * 4) ≤ 4
    rw [jsRound]
    have hle : (monthCount commits m : ℚ) ≤ (maxMonthly commits : ℚ) := by
      exact_mod_cast monthCount_le_maxMonthly commits m
    have h1 : (monthCount commits m : ℚ) / (maxMonthly commits : ℚ) ≤ 1 :=
      (div_le_one hMpos).mpr hle
    have hlt : ⌊(monthCount commits m : ℚ) / (maxMonthly commits : ℚ) * 4 + 1 / 2⌋ < 5 := by
      refine Int.floor_lt.mpr ?_
      push_cast
      linarith
    omega

/-- Witness for C10 at the empty commit list: the first window cell has
intensity within bounds. -/
theorem heatmap_intensity_safe_witness :
    0 ≤ ((heatmapData 0 1 []).get ⟨0, heatmapWitnessPos⟩).intensity ∧
    ((heatmapData 0 1 []).get ⟨0, heatmapWitnessPos⟩).intensity ≤ 4 :=
  ((heatmap_intensity_safe 0 1 []).2 _ (List.get_mem _ 0 heatmapWitnessPos)).2

/-! ### Activity level of a window month -/

/-- Modelled from the spec: the per-month activity level is derived by
the backend Aggregator, absent from the source tree (the frontend
AISummaryView only declares the high, medium or low level and colors
it): a month is high when its count is at least 75 percent of the
maximum count observed in the window, medium when at least 35 percent,
low otherwise, and a month with zero commits is always low. -/
def activityLevel (maxCount count : ℕ) : String :=
  if count = 0 then "low"
  else if (75 : ℚ) / 100 * (maxCount : ℚ) ≤ (count : ℚ) then "high"
  else if (35 : ℚ) / 100 * (maxCount : ℚ) ≤ (count : ℚ) then "medium"
  else "low"

/-- Modelled from the spec: the levels of a window of monthly counts,
each derived relative to the maximum count of the window. -/
def windowActivityLevels (counts : List ℕ) : List (ℕ × String) :=
  counts.map (fun c => (c, activityLevel (counts.foldr max 0) c))

/-- C8: for every month of the window, the derived level is high exactly
when the count is nonzero and at least 75 percent of the window maximum,
medium exactly when nonzero, below the high threshold and at least 35
percent of the maximum, and low exactly when the count is zero or below
the 35 percent threshold. -/
theorem activity_level_matches_thresholds (counts : List ℕ) (c : ℕ) (lv : String)
    (h : (c, lv) ∈ windowActivityLevels counts) :
    (lv = "high" ↔ c ≠ 0 ∧ (75 : ℚ) / 100 * ((counts.foldr max 0 : ℕ) : ℚ) ≤ (c : ℚ)) ∧
    (lv = "medium" ↔ c ≠ 0 ∧ ¬((75 : ℚ) / 100 * ((counts.foldr max 0 : ℕ) : ℚ) ≤ (c : ℚ)) ∧
      (35 : ℚ) / 100 * ((counts.foldr max 0 : ℕ) : ℚ) ≤ (c : ℚ)) ∧
    (lv = "low" ↔ c = 0 ∨ ¬((35 : ℚ) / 100 * ((counts.foldr max 0 : ℕ) : ℚ) ≤ (c : ℚ))) := by
  rcases List.mem_map.mp h with ⟨x, -, heq⟩
  have hlv : lv = activityLevel (counts.foldr max 0) c := by
    have hx : x = c := congrArg Prod.fst heq
    have hl : activityLevel (counts.foldr max 0) x = lv := congrArg Prod.snd heq
    rw [← hl, hx]
  subst hlv
  by_cases h0 : c = 0
  · refine ⟨?_, ?_, ?_⟩ <;> simp [activityLevel, h0]
  · by_cases h75 : (75 : ℚ) / 100 * ((counts.foldr max 0 : ℕ) : ℚ) ≤ (c : ℚ)
    · have h35 : (35 : ℚ) / 100 * ((counts.foldr max 0 : ℕ) : ℚ) ≤ (c : ℚ) := by
        refine le_trans ?_ h75
        have hM : (0 : ℚ) ≤ ((counts.foldr max 0 : ℕ) : ℚ) := Nat.cast_nonneg _
        nlinarith
      refine ⟨?_, ?_, ?_⟩ <;> simp [activityLevel, h0, h75, h35]
    · by_cases h35 : (35 : ℚ) / 100 * ((counts.foldr max 0 : ℕ) : ℚ) ≤ (c : ℚ)
      · refine ⟨?_, ?_, ?_⟩ <;> simp [activityLevel, h0, h75, h35]
      · refine ⟨?_, ?_, ?_⟩ <;> simp [activityLevel, h0, h75, h35]

/-- Witness for C8 at the concrete window 4, 1, 0 of monthly counts: the
month with all four commits is classified high, exactly per the
threshold characterization. -/
theorem activity_level_matches_thresholds_witness :
    ("high" = "high" ↔ (4 : ℕ) ≠ 0 ∧
      (75 : ℚ) / 100 * ((([4, 1, 0] : List ℕ).foldr max 0 : ℕ) : ℚ) ≤ ((4 : ℕ) : ℚ)) ∧
    ("high" = "medium" ↔ (4 : ℕ) ≠ 0 ∧
      ¬((75 : ℚ) / 100 * ((([4, 1, 0] : List ℕ).foldr max 0 : ℕ) : ℚ) ≤ ((4 : ℕ) : ℚ)) ∧
      (35 : ℚ) / 100 * ((([4, 1, 0] : List ℕ).foldr max 0 : ℕ) : ℚ) ≤ ((4 : ℕ) : ℚ)) ∧
    ("high" = "low" ↔ (4 : ℕ) = 0 ∨
      ¬((35 : ℚ) / 100 * ((([4, 1, 0] : List ℕ).foldr max 0 : ℕ) : ℚ) ≤ ((4 : ℕ) : ℚ))) :=
  activity_level_matches_thresholds [4, 1, 0] 4 "high"
    (by norm_num [windowActivityLevels, activityLevel])

/-! ### Daily timeline grouping (TimelineView.tsx, timelineGroups memo)

A commit enters the grouping through its calendar date string and its
author name, so it is embedded by an absolute day index and its author
name (the optional author_name of the interface is embedded as a string,
with the empty string standing for a missing or empty name, exactly the
values the truthiness test of the code rejects). -/

/-- A commit as consumed by the timeline grouping. -/
structure TCommit where
  sha : String
  message : String
  author_name : String
  day : ℤ
deriving DecidableEq, Repr

/-- One group of the timeline, keyed by a calendar date. -/
structure TimelineGroup where
  date : ℤ
  commits : List TCommit
  uniqueAuthors : List String
deriving DecidableEq, Repr

/-- Push a commit onto a group and record its author when the name is
truthy and not yet recorded, as the loop body of the memo does. -/
def addToGroup (g : TimelineGroup) (c : TCommit) : TimelineGroup :=
  { g with
    commits := g.commits ++ [c]
    uniqueAuthors :=
      if c.author_name ≠ "" ∧ c.author_name ∉ g.uniqueAuthors then
        g.uniqueAuthors ++ [c.author_name]
      else g.uniqueAuthors }

/-- Route one commit to the group of its date, creating the group at the
end of the list when absent, which mirrors the insertion-ordered Map of
the memo. -/
def insertCommit : List TimelineGroup → TCommit → List TimelineGroup
  | [], c => [addToGroup { date := c.day, commits := [], uniqueAuthors := [] } c]
  | g :: gs, c =>
    if g.date = c.day then addToGroup g c :: gs
    else g :: insertCommit gs c

/-- The groups in Map insertion order, before sorting. -/
def timelineGroupsUnsorted (commits : List TCommit) : List TimelineGroup :=
  commits.foldl insertCommit []

/-- The descending date order of the final sort of the memo. -/
def dateDescending (a b : TimelineGroup) : Prop :=
  b.date ≤ a.date

instance : DecidableRel dateDescending :=
  fun a b => inferInstanceAs (Decidable (b.date ≤ a.date))

/-- The timeline groups as returned by the memo, newest date first. -/
def timelineGroups (commits : List TCommit) : List TimelineGroup :=
  List.insertionSort dateDescending (timelineGroupsUnsorted commits)

/-- Well-formedness of one group: all commits carry the group date, and
the recorded authors are exactly the distinct truthy author names of the
group commits, each exactly once. -/
def GroupWf (g : TimelineGroup) : Prop :=
  (∀ c ∈ g.commits, c.day = g.date) ∧
  g.uniqueAuthors.Nodup ∧
  (∀ a : String, a ∈ g.uniqueAuthors ↔ (a ≠ "" ∧ a ∈ g.commits.map (·.author_name)))

theorem nodup_append_singleton {α : Type*} {l : List α} {a : α}
    (hl : l.Nodup) (ha : a ∉ l) : (l ++ [a]).Nodup := by
  simp [List.nodup_append, hl, ha]

theorem groupWf_addToGroup (g : TimelineGroup) (c : TCommit) (hg : GroupWf g)
    (hd : c.day = g.date) : GroupWf (addToGroup g c) := by
  obtain ⟨hdays, hnd, hmem⟩ := hg
  refine ⟨?_, ?_, ?_⟩
  · intro x hx
    rcases List.mem_append.mp hx with hx | hx
    · exact hdays x hx
    · rw [List.mem_singleton.mp hx]
      exact hd
  · show (if c.author_name ≠ "" ∧ c.author_name ∉ g.uniqueAuthors then
        g.uniqueAuthors ++ [c.author_name] else g.uniqueAuthors).Nodup
    split
    · next hcond => exact nodup_append_singleton hnd hcond.2
    · exact hnd
  · intro a
    show a ∈ (if c.author_name ≠ "" ∧ c.author_name ∉ g.uniqueAuthors then
        g.uniqueAuthors ++ [c.author_name] else g.uniqueAuthors) ↔
      a ≠ "" ∧ a ∈ (g.commits ++ [c]).map (·.author_name)
    rw [List.map_append]
    by_cases hcond : c.author_name ≠ "" ∧ c.author_name ∉ g.uniqueAuthors
    · rw [if_pos hcond]
      constructor
      · intro ha
        rcases List.mem_append.mp ha with ha | ha
        · obtain ⟨h1, h2⟩ := (hmem a).mp ha
          exact ⟨h1, List.mem_append.mpr (Or.inl h2)⟩
        · rw [List.mem_singleton.mp ha]
          exact ⟨hcond.1, List.mem_append.mpr (Or.inr (by simp))⟩
      · rintro ⟨h1, h2⟩
        rcases List.mem_append.mp h2 with h2 | h2
        · exact List.mem_append.mpr (Or.inl ((hmem a).mpr ⟨h1, h2⟩))
        · have : a = c.author_name := by simpa using h2
          exact List.mem_append.mpr (Or.inr (by simp [this]))
    · rw [if_neg hcond]
      push_neg at hcond
      constructor
      · intro ha
        obtain ⟨h1, h2⟩ := (hmem a).mp ha
        exact ⟨h1, List.mem_append.mpr (Or.inl h2)⟩
      · rintro ⟨h1, h2⟩
        rcases List.mem_append.mp h2 with h2 | h2
        · exact (hmem a).mpr ⟨h1, h2⟩
        · have hac : a = c.author_name := by simpa using h2
          by_cases hne : c.author_name = ""
          · exact absurd (hac.trans hne) h1
          · exact hac ▸ hcond hne

theorem insertCommit_wf (c : TCommit) :
    ∀ gs : List TimelineGroup, (∀ g ∈ gs, GroupWf g) →
      ∀ g ∈ insertCommit gs c, GroupWf g := by
  intro gs
  induction gs with
  | nil =>
    intro _ g hg
    rw [insertCommit] at hg
    rw [List.mem_singleton.mp hg]
    refine groupWf_addToGroup _ c ⟨?_, ?_, ?_⟩ rfl
    · intro x hx
      cases hx
    · exact List.nodup_nil
    · intro a
      simp
  | cons g0 gs ih =>
    intro hwf g hg
    rw [insertCommit] at hg
    by_cases hdate : g0.date = c.day
    · rw [if_pos hdate] at hg
      rcases List.mem_cons.mp hg with rfl | hg
      · exact groupWf_addToGroup g0 c (hwf g0 (List.mem_cons_self g0 gs)) hdate.symm
      · exact hwf g (List.mem_cons_of_mem g0 hg)
    · rw [if_neg hdate] at hg
      rcases List.mem_cons.mp hg with rfl | hg
      · exact hwf g (List.mem_cons_self g gs)
      · exact ih (fun x hx => hwf x (List.mem_cons_of_mem g0 hx)) g hg

theorem insertCommit_dates (c : TCommit) :
    ∀ gs : List TimelineGroup,
      (insertCommit gs c).map (·.date) =
        if c.day ∈ gs.map (·.date) then gs.map (·.date)
        else gs.map (·.date) ++ [c.day] := by
  intro gs
  induction gs with
  | nil => simp [insertCommit, addToGroup]
  | cons g0 gs ih =>
    rw [insertCommit]
    by_cases hdate : g0.date = c.day
    · rw [if_pos hdate]
      have hmem : c.day ∈ (g0 :: gs).map (·.date) := by
        simp [← hdate]
      rw [if_pos hmem]
      simp [addToGroup]
    · rw [if_neg hdate]
      by_cases hmem : c.day ∈ gs.map (·.date)
      · have hmem2 : c.day ∈ (g0 :: gs).map (·.date) := by
          simp [hmem]
        rw [if_pos hmem2]
        simp [ih, hmem]
      · have hmem2 : c.day ∉ (g0 :: gs).map (·.date) := by
          simp [hmem]
          exact fun h => absurd h.symm hdate
        rw [if_neg hmem2]
        simp [ih, hmem]

theorem insertCommit_dates_nodup (c : TCommit) (gs : List TimelineGroup)
    (hnd : (gs.map (·.date)).Nodup) : ((insertCommit gs c).map (·.date)).Nodup := by
  rw [insertCommit_dates]
  by_cases hmem : c.day ∈ gs.map (·.date)
  · rw [if_pos hmem]
    exact hnd
  · rw [if_neg hmem]
    exact nodup_append_singleton hnd hmem

theorem insertCommit_flatten (c : TCommit) :
    ∀ gs : List TimelineGroup,
      ((insertCommit gs c).map (·.commits)).flatten.Perm
        (c :: (gs.map (·.commits)).flatten) := by
  intro gs
  induction gs with
  | nil => simp [insertCommit, addToGroup]
  | cons g0 gs ih =>
    rw [insertCommit]
    by_cases hdate : g0.date = c.day
    · rw [if_pos hdate]
      simp only [List.map_cons, List.flatten_cons, addToGroup]
      rw [List.append_assoc]
      exact List.perm_middle
    · rw [if_neg hdate]
      simp only [List.map_cons, List.flatten_cons]
      exact (List.Perm.append_left g0.commits ih).trans List.perm_middle

theorem foldl_insertCommit_wf :
    ∀ (commits : List TCommit) (gs : List TimelineGroup), (∀ g ∈ gs, GroupWf g) →
      ∀ g ∈ commits.foldl insertCommit gs, GroupWf g := by
  intro commits
  induction commits with
  | nil => intro gs h; exact h
  | cons c cs ih =>
    intro gs h
    rw [List.foldl_cons]
    exact ih (insertCommit gs c) (insertCommit_wf c gs h)

theorem foldl_insertCommit_dates_nodup :
    ∀ (commits : List TCommit) (gs : List TimelineGroup), (gs.map (·.date)).Nodup →
      ((commits.foldl insertCommit gs).map (·.date)).Nodup := by
  intro commits
  induction commits with
  | nil => intro gs h; exact h
  | cons c cs ih =>
    intro gs h
    rw [List.foldl_cons]
    exact ih (insertCommit gs c) (insertCommit_dates_nodup c gs h)

theorem foldl_insertCommit_flatten :
    ∀ (commits : List TCommit) (gs : List TimelineGroup),
      ((commits.foldl insertCommit gs).map (·.commits)).flatten.Perm
        ((gs.map (·.commits)).flatten ++ commits) := by
  intro commits
  induction commits with
  | nil => intro gs; simp
  | cons c cs ih =>
    intro gs
    rw [List.foldl_cons]
    exact ((ih (insertCommit gs c)).trans
      (List.Perm.append_right cs (insertCommit_flatten c gs))).trans
      List.perm_middle.symm

/-- C9: the daily timeline grouping partitions the filtered commits:
every group holds only commits of its own date, group dates are
pairwise distinct, the groups together hold exactly the input commits
(so the group sizes sum to the input length), each group records each
distinct truthy author name exactly once, and the groups come out
strictly newest first. -/
theorem timeline_groups_partition (commits : List TCommit) :
    (∀ g ∈ timelineGroups commits, ∀ c ∈ g.commits, c.day = g.date) ∧
    ((timelineGroups commits).map (·.date)).Nodup ∧
    ((timelineGroups commits).map (·.commits)).flatten.Perm commits ∧
    ((timelineGroups commits).map (fun g => g.commits.length)).sum = commits.length ∧
    (∀ g ∈ timelineGroups commits, g.uniqueAuthors.Nodup ∧
      ∀ a : String, a ∈ g.uniqueAuthors ↔ (a ≠ "" ∧ a ∈ g.commits.map (·.author_name))) ∧
    (timelineGroups commits).Pairwise (fun a b => b.date < a.date) := by
  have hperm : (timelineGroups commits).Perm (timelineGroupsUnsorted commits) :=
    List.perm_insertionSort _ _
  have hwf : ∀ g ∈ timelineGroupsUnsorted commits, GroupWf g :=
    foldl_insertCommit_wf commits [] (by intro g hg; cases hg)
  have hnd : ((timelineGroupsUnsorted commits).map (·.date)).Nodup :=
    foldl_insertCommit_dates_nodup commits [] List.nodup_nil
  have hndSorted : ((timelineGroups commits).map (·.date)).Nodup :=
    ((hperm.map (·.date)).nodup_iff).mpr hnd
  have hflat : ((timelineGroups commits).map (·.commits)).flatten.Perm commits := by
    have h1 : ((timelineGroupsUnsorted commits).map (·.commits)).flatten.Perm commits := by
      have := foldl_insertCommit_flatten commits []
      simpa [timelineGroupsUnsorted] using this
    exact ((hperm.map (·.commits)).flatten).trans h1
  refine ⟨?_, hndSorted, hflat, ?_, ?_, ?_⟩
  · intro g hg
    exact (hwf g (hperm.mem_iff.mp hg)).1
  · have hlen : ((timelineGroups commits).map (·.commits)).flatten.length = commits.length :=
      hflat.length_eq
    rw [← hlen, List.length_flatten, List.map_map]
    rfl
  · intro g hg
    exact ⟨(hwf g (hperm.mem_iff.mp hg)).2.1, (hwf g (hperm.mem_iff.mp hg)).2.2⟩
  · have hsorted : (timelineGroups commits).Sorted dateDescending := by
      haveI : IsTotal TimelineGroup dateDescending := ⟨fun a b => le_total b.date a.date⟩
      haveI : IsTrans TimelineGroup dateDescending := ⟨fun _ _ _ hab hbc => le_trans hbc hab⟩
      exact List.sorted_insertionSort _ _
    have hne : (timelineGroups commits).Pairwise (fun a b => a.date ≠ b.date) :=
      List.pairwise_map.mp hndSorted
    exact (hsorted.and hne).imp (fun h => lt_of_le_of_ne h.1 (fun he => h.2 he.symm))

/-- The concrete commit list for the C9 witness: two commits on day 10,
one with an empty author name, and one commit on day 7. -/
def demoCommits : List TCommit :=
  [{ sha := "s1", message := "m1", author_name := "alice", day := 10 },
   { sha := "s2", message := "m2", author_name := "", day := 10 },
   { sha := "s3", message := "m3", author_name := "bob", day := 7 }]

theorem demoCommitsPos : 0 < (timelineGroups demoCommits).length := by
  decide

/-- Witness for C9 at the concrete commit list: the grouped commits are
a permutation of the input and the newest group has duplicate-free
authors. -/
theorem timeline_groups_partition_witness :
    ((timelineGroups demoCommits).map (·.commits)).flatten.Perm demoCommits ∧
    ((timelineGroups demoCommits).get ⟨0, demoCommitsPos⟩).uniqueAuthors.Nodup :=
  ⟨(timeline_groups_partition demoCommits).2.2.1,
    ((timeline_groups_partition demoCommits).2.2.2.2.1 _
      (List.get_mem _ 0 demoCommitsPos)).1⟩
